import Mathlib

/-!
Verification of the orchestration core of the deep-research agent
(src/graph.py, src/reflection.py, src/researcher.py, src/compiler.py).

The Python code is shallowly embedded: each pure fragment becomes an
executable Lean function operating on explicit data.  LLM calls and web
requests are injected as function parameters (oracles), so theorems quantify
over all possible oracle outputs.  Python dicts are modelled as association
lists with dict semantics: unique keys, insertion order kept when a key is
overwritten, and later bindings winning where the source builds a dict by
comprehension.  Floating point relevance scores are modelled by integers,
faithful because the code only compares scores with a strict total order.
-/

/-- A raw Tavily search hit (researcher.py).  The source reads hits with
r.get("url") and r.get("score", 0); a missing or empty url is falsy in
Python and is modelled by url = "".  The title field stands for the rest of
the result dict, which the ranker carries along untouched. -/
structure SearchHit where
  url : String
  score : Int
  title : String
deriving DecidableEq, Repr

/-- Replace the first element whose url equals the url of r by r, keeping
its position: what a Python dict assignment does when the key exists. -/
def setKey : List SearchHit → SearchHit → List SearchHit
  | [], r => [r]
  | s :: ss, r => if s.url = r.url then r :: ss else s :: setKey ss r

/-- One step of the dedup loop of Researcher.research_question
(researcher.py lines 364-370, textually repeated in improve_research lines
458-464): skip hits with a falsy url; insert a fresh url at the end; replace
a stored hit only when the incoming score strictly exceeds the stored one. -/
def updateStore (store : List SearchHit) (r : SearchHit) : List SearchHit :=
  if r.url = "" then store
  else
    match store.find? (fun s => s.url == r.url) with
    | none => store ++ [r]
    | some s => if s.score < r.score then setKey store r else store

/-- The url_to_result dict built by folding all incoming hits over an empty
store, read back with .values() in insertion order. -/
def dedupByUrl (hits : List SearchHit) : List SearchHit :=
  hits.foldl updateStore []

/-- Generic stable insertion: x is placed before the first element y with
le x y true, hence after every earlier element it does not strictly beat. -/
def insertLe {α : Type} (le : α → α → Bool) (x : α) : List α → List α
  | [] => [x]
  | y :: ys => if le x y then x :: y :: ys else y :: insertLe le x ys

/-- Generic left-to-right insertion sort.  A stable sort on a fixed key is
unique, so this computes the same list as the stable Python sorted(). -/
def sortLe {α : Type} (le : α → α → Bool) (l : List α) : List α :=
  l.foldl (fun acc x => insertLe le x acc) []

/-- Comparison used to sort candidate hits: x goes strictly before y iff
the score of x strictly exceeds the score of y (descending order; ties keep
input order, as Python sorted with reverse=True does). -/
def hitBefore (x y : SearchHit) : Bool := decide (y.score < x.score)

/-- sorted(url_to_result.values(), key=score, reverse=True). -/
def sortByScoreDesc (l : List SearchHit) : List SearchHit :=
  sortLe hitBefore l

/-- The candidate ranker of Researcher.research_question and
Researcher.improve_research: dedup by URL keeping the strictly best score,
sort by score descending, keep the top 10 (sorted_results[:10]). -/
def rank (hits : List SearchHit) : List SearchHit :=
  (sortByScoreDesc (dedupByUrl hits)).take 10

/-- Scores available in hits for the URL u. -/
def scoresFor (hits : List SearchHit) (u : String) : List Int :=
  (hits.filter (fun r => r.url = u)).map (·.score)

/-- Invariant of the dedup store: URLs are pairwise distinct and non-empty. -/
def StoreInv (store : List SearchHit) : Prop :=
  (store.map (·.url)).Nodup ∧ ∀ s ∈ store, s.url ≠ ""

/-- Scores are in descending order. -/
abbrev SortedDesc (l : List SearchHit) : Prop :=
  l.Pairwise (fun a b => b.score ≤ a.score)

/-! Citation normalizer (compiler.py, ReportCompiler._format_citations).

The report text is embedded as a list of chunks produced by the regex
tokenization the source performs: a marker chunk is one occurrence of the
pattern  open-bracket src_ alnum+ close-bracket ; a refsHeading chunk is one
occurrence of the section pattern  newline+ ## References newline  that the
strip regex matches (the regex removes everything from there to the end of
the text); plain chunks are the remaining text, which by tokenization
contains neither pattern.  A refEntry chunk n title url renders as
"[n] [title](url)" on its own line, exactly the entry string the source
appends; it matches neither pattern, so rescanning treats it like plain. -/

/-- The source metadata catalogue entry (state.py, SourceMetadata; the
timestamp field plays no role in any claim and is omitted). -/
structure SourceMetadata where
  id : String
  url : String
  title : String
  full_content : String
deriving DecidableEq, Repr

/-- One tokenized piece of report text; see the section comment above. -/
inductive Chunk where
  | plain (s : String)
  | marker (id : String)
  | refsHeading
  | refEntry (num : Nat) (title : String) (url : String)
deriving DecidableEq, Repr

/-- re.findall over the whole report: the marker ids in textual order. -/
def markersOf (report : List Chunk) : List String :=
  report.filterMap fun c =>
    match c with
    | Chunk.marker sid => some sid
    | _ => none

/-- Code point comparison of character lists, ascending lexicographic:
exactly how Python compares the strings sorted() receives. -/
def charListLe : List Char → List Char → Bool
  | [], _ => true
  | _ :: _, [] => false
  | a :: as, b :: bs =>
    if a < b then true
    else if b < a then false
    else charListLe as bs

/-- Ascending lexicographic comparison of strings by code points. -/
def strLe (a b : String) : Bool := charListLe a.data b.data

/-- sorted(set(re.findall(...))): the distinct cited identifiers in
ascending lexical order. -/
def used_ids (report : List Chunk) : List String :=
  sortLe strLe (markersOf report).dedup

/-- id_to_num: the 1-based position of an identifier in the sorted list of
distinct cited identifiers (enumerate(sorted(used_ids), 1)). -/
def id_num (sid : String) : List String → Option Nat
  | [] => none
  | s :: ss => if s = sid then some 1 else (id_num sid ss).map (· + 1)

/-- The replacement the re.sub callback produces for one marker:
id_to_num.get(sid) when present, else the literal "[?]" default. -/
def renderNum (used : List String) (sid : String) : String :=
  match id_num sid used with
  | some n => "[" ++ toString n ++ "]"
  | none => "[?]"

/-- report = re.sub(marker_pattern, replace, report): every marker becomes
plain text; all other chunks are untouched. -/
def replaceMarkers (used : List String) (report : List Chunk) : List Chunk :=
  report.map fun c =>
    match c with
    | Chunk.marker sid => Chunk.plain (renderNum used sid)
    | c => c

/-- The strip regex removes everything from the first references heading to
the end of the text (re.DOTALL). -/
def stripRefs : List Chunk → List Chunk
  | [] => []
  | Chunk.refsHeading :: _ => []
  | c :: rest => c :: stripRefs rest

/-- source_map lookup: a dict comprehension keyed by id, so the last
binding for an id wins. -/
def find_source (sources : List SourceMetadata) (sid : String) : Option SourceMetadata :=
  sources.reverse.find? (fun s => s.id == sid)

/-- The appended reference entries: the source iterates
sorted(used_ids, key=display number), which is used_ids itself since the
display number is the position in that sorted list, and keeps an entry only
when both the number and the catalogue entry are found (if num and source). -/
def refEntries (used : List String) (sources : List SourceMetadata) : List Chunk :=
  used.filterMap fun sid =>
    match id_num sid used, find_source sources sid with
    | some n, some s => some (Chunk.refEntry n s.title s.url)
    | _, _ => none

/-- ReportCompiler._format_citations (compiler.py lines 245-272): collect the
cited identifiers, number them in ascending lexical order, substitute every
marker, strip any pre-existing references section, and append a fresh
heading plus entries when at least one identifier was cited. -/
def format_citations (report : List Chunk) (sources : List SourceMetadata) : List Chunk :=
  let used := used_ids report
  let stripped := stripRefs (replaceMarkers used report)
  if used = [] then stripped
  else stripped ++ Chunk.refsHeading :: refEntries used sources

/-! State machine: reflection decision and routing (reflection.py, graph.py). -/

/-- The Literal type of AgentAnalysis.overall_assessment (state.py). -/
inductive Assessment where
  | strong
  | adequate
  | needs_improvement
deriving DecidableEq, Repr

/-- WeakAnswer (state.py). -/
structure WeakAnswer where
  question_id : String
  issue : String
  suggestion : String
deriving DecidableEq, Repr

/-- AgentAnalysis (state.py). -/
structure AgentAnalysis where
  overall_assessment : Assessment
  weak_answers : List WeakAnswer
  knowledge_gaps : List String
  conflicting_info : List String
  suggested_questions : List String
  suggested_searches : List String
deriving DecidableEq, Repr

/-- SubQuestion (state.py). -/
structure SubQuestion where
  question_id : String
  question : String
  search_strategy : String
  importance : String
deriving DecidableEq, Repr

/-- ResearchPlan (state.py). -/
structure ResearchPlan where
  main_question : String
  sub_questions : List SubQuestion
deriving DecidableEq, Repr

/-- Finding (state.py). -/
structure Finding where
  claim : String
  evidence : String
  source_ids : List String
  confidence : String
deriving DecidableEq, Repr

/-- QuestionAnswer (state.py).  confidence and completeness are the string
enums high/medium/low and complete/partial/insufficient. -/
structure QuestionAnswer where
  question_id : String
  question : String
  answer : String
  key_findings : List Finding
  sources : List SourceMetadata
  confidence : String
  completeness : String
deriving DecidableEq, Repr

/-- graph.py line 19: the hardcoded router bound. -/
def MAX_ITERATIONS : Nat := 2

/-- The decision fragment of reflection_node (reflection.py lines 197-216):
given the fresh analysis, the current iteration count and the configured
max_iterations, it returns the next_step string and the new iteration count
written back to the state.  needs_improvement requires the assessment
needs_improvement, a non-empty weak_answers list, and
current_iteration < max_iterations; only then does the count increment. -/
def reflection_node (analysis : AgentAnalysis) (current_iteration max_iterations : Nat) :
    String × Nat :=
  if analysis.overall_assessment = Assessment.needs_improvement
      ∧ analysis.weak_answers ≠ [] ∧ current_iteration < max_iterations
  then ("re_research", current_iteration + 1)
  else ("compile", current_iteration)

/-- The slice of ResearchState that route_after_reflection reads, as it
stands after the reflection_node update of the same superstep (LangGraph
applies node writes before evaluating conditional edges; the router depends
on this, since next_step is written by reflection_node itself). -/
structure RouteState where
  current_iteration : Nat
  next_step : String
  agent_analysis : Option AgentAnalysis
  research_plan : Option ResearchPlan
  question_answers : List (String × QuestionAnswer)
deriving DecidableEq, Repr

/-- _get_weak_answers (graph.py lines 33-43): empty when no analysis. -/
def get_weak_answers (s : RouteState) : List WeakAnswer :=
  match s.agent_analysis with
  | none => []
  | some a => a.weak_answers

/-- _get_suggested_searches (graph.py lines 46-50). -/
def get_suggested_searches (s : RouteState) : List String :=
  match s.agent_analysis with
  | none => []
  | some a => a.suggested_searches

/-- _get_answer_data (graph.py lines 53-58): the previous answer text and
sources for a question id, defaulting to an empty answer and no sources. -/
def get_answer_data (s : RouteState) (q_id : String) : String × List SourceMetadata :=
  match s.question_answers.find? (fun p => p.1 == q_id) with
  | none => ("", [])
  | some p => (p.2.answer, p.2.sources)

/-- sq_map lookup (graph.py line 106): the dict comprehension keyed by
question_id lets a later duplicate overwrite an earlier one, hence the
lookup over the reversed list. -/
def sq_lookup (plan : ResearchPlan) (q_id : String) : Option SubQuestion :=
  plan.sub_questions.reverse.find? (fun sq => sq.question_id == q_id)

/-- The payload of one Send("parallel_researcher", ...) from
route_after_reflection (graph.py lines 119-125). -/
structure ReTask where
  sub_question : SubQuestion
  previous_answer : String
  previous_sources : List SourceMetadata
  improvement_suggestion : String
  suggested_searches : List String
deriving DecidableEq, Repr

/-- A routing destination of route_after_reflection. -/
inductive Dest where
  | parallel_researcher (t : ReTask)
  | compiler
deriving DecidableEq, Repr

/-- The body of the fan-out loop (graph.py lines 109-125): a weak answer
whose question_id misses the plan is skipped (if not sq: continue);
otherwise a researcher Send carrying the previous answer and sources, the
specific suggestion and the suggested searches of the assessment. -/
def send_for (s : RouteState) (plan : ResearchPlan) (wa : WeakAnswer) : Option Dest :=
  (sq_lookup plan wa.question_id).map fun sq =>
    Dest.parallel_researcher
      { sub_question := sq
        previous_answer := (get_answer_data s wa.question_id).1
        previous_sources := (get_answer_data s wa.question_id).2
        improvement_suggestion := wa.suggestion
        suggested_searches := get_suggested_searches s }

/-- route_after_reflection (graph.py lines 85-127). -/
def route_after_reflection (s : RouteState) : List Dest :=
  if s.next_step ≠ "re_research" ∨ MAX_ITERATIONS ≤ s.current_iteration
      ∨ get_weak_answers s = []
  then [Dest.compiler]
  else
    match s.research_plan with
    | none => [Dest.compiler]
    | some plan =>
      let sends := (get_weak_answers s).filterMap (send_for s plan)
      if sends = [] then [Dest.compiler] else sends

/-- One reflection superstep as the graph executes it: reflection_node
updates next_step and current_iteration, then route_after_reflection reads
the updated state.  Returns the destinations and the new iteration count. -/
def reflect_then_route (analysis : AgentAnalysis) (plan : Option ResearchPlan)
    (answers : List (String × QuestionAnswer)) (iter cfg_max : Nat) :
    List Dest × Nat :=
  let r := reflection_node analysis iter cfg_max
  (route_after_reflection
    { current_iteration := r.2
      next_step := r.1
      agent_analysis := some analysis
      research_plan := plan
      question_answers := answers }, r.2)

/-- The reflection stage dispatched at least one research task. -/
def goes_to_research (ds : List Dest) : Prop :=
  ∃ t, Dest.parallel_researcher t ∈ ds

/-- The iteration counter over a whole run: reflection_node runs once per
round with the iteration count produced by the previous round, starting
from 0 (state.get("current_iteration", 0)). -/
def run_iterations (assessments : List AgentAnalysis) (cfg_max : Nat) : Nat :=
  assessments.foldl (fun iter a => (reflection_node a iter cfg_max).2) 0

/-- A routing destination of route_after_planner (graph.py lines 65-75). -/
inductive PlanDest where
  | parallel_researcher (sub_question : SubQuestion) (main_query : String)
  | compiler
deriving DecidableEq, Repr

/-- route_after_planner (graph.py lines 65-75): with no plan in the state
(or a falsy one) the single Send goes to the compiler; otherwise one Send
per sub-question.  A present plan object is always truthy in Python, even
with an empty sub_questions list, so _get_plan keeps it. -/
def route_after_planner (research_plan : Option ResearchPlan) (original_query : String) :
    List PlanDest :=
  match research_plan with
  | none => [PlanDest.compiler]
  | some plan =>
    plan.sub_questions.map fun sq => PlanDest.parallel_researcher sq original_query

/-! Targeted re-research (researcher.py, Researcher.improve_research).
The web searches and the two LLM stages are injected: all_results is the
concatenation of the search results of the queries (suggested_searches
capped at 4, else the improvement suggestion); extract stands for
extract_findings on the ranked results; synthesize stands for
_synthesize_improved on the new findings. -/

/-- _make_answer (researcher.py lines 506-516): fixed confidence "medium"
and completeness "partial". -/
def make_answer (sq : SubQuestion) (answer : String) (findings : List Finding)
    (sources : List SourceMetadata) : QuestionAnswer :=
  { question_id := sq.question_id
    question := sq.question
    answer := answer
    key_findings := findings
    sources := sources
    confidence := "medium"
    completeness := "partial" }

/-- _merge_sources (researcher.py lines 539-554): keep all new sources,
then append each previous source whose url was not seen yet. -/
def merge_sources (new : List SourceMetadata) (prev : List SourceMetadata) :
    List SourceMetadata :=
  prev.foldl
    (fun acc src => if acc.any (fun s => s.url == src.url) then acc else acc ++ [src])
    new

/-- _assess_confidence (researcher.py lines 401-410). -/
def assess_confidence (findings : List Finding) (sources : List SourceMetadata) : String :=
  if 5 ≤ sources.length ∧ 4 ≤ findings.length then "high"
  else if 3 ≤ sources.length ∧ 2 ≤ findings.length then "medium"
  else "low"

/-- _assess_completeness (researcher.py lines 412-422). -/
def assess_completeness (findings : List Finding) (sources : List SourceMetadata) : String :=
  if 3 ≤ findings.length ∧ 3 ≤ sources.length then "complete"
  else if 2 ≤ findings.length then "partial"
  else "insufficient"

/-- Researcher.improve_research (researcher.py lines 424-504), with the
search results and the LLM stages injected.  No results at all: fall back to
the previous answer with no sources.  Results but no extracted findings:
fall back to the previous answer with the previous sources.  Otherwise a
fresh synthesis over the ranked results with merged sources. -/
def improve_research (sq : SubQuestion) (previous_answer : String)
    (previous_sources : List SourceMetadata) (all_results : List SearchHit)
    (extract : List SearchHit → List Finding × List SourceMetadata)
    (synthesize : List Finding → String) : QuestionAnswer :=
  if all_results = [] then make_answer sq previous_answer [] []
  else
    let top_results := rank all_results
    let fs := extract top_results
    if fs.1 = [] then make_answer sq previous_answer [] previous_sources
    else
      let all_sources := merge_sources fs.2 previous_sources
      { question_id := sq.question_id
        question := sq.question
        answer := synthesize fs.1
        key_findings := fs.1
        sources := all_sources
        confidence := assess_confidence fs.1 all_sources
        completeness := assess_completeness fs.1 all_sources }

/-! Concrete inputs used by counterexamples and witnesses. -/

/-- A hit whose result dict has no url key: r.get("url") is falsy. -/
def c4_list : List SearchHit := [{ url := "", score := 5, title := "no url" }]

/-- An already ranked list: distinct non-empty URLs, descending scores. -/
def w4_list : List SearchHit :=
  [{ url := "https://a", score := 3, title := "A" },
   { url := "https://b", score := 2, title := "B" }]

/-- Report text citing identifiers src_b, src_a, src_c in that order. -/
def c5_demo : List Chunk :=
  [Chunk.marker "src_b", Chunk.plain " and ", Chunk.marker "src_a",
   Chunk.plain " then ", Chunk.marker "src_c"]

/-- Report text citing the same identifier set as c5_demo, in a different
first-appearance order. -/
def c5_demo2 : List Chunk :=
  [Chunk.marker "src_a", Chunk.plain "x", Chunk.marker "src_b", Chunk.marker "src_c"]

/-- A marker-free report containing a stale references section. -/
def c6_plain_report : List Chunk :=
  [Chunk.plain "body", Chunk.refsHeading, Chunk.plain "stale refs"]

/-- A one-source catalogue. -/
def c6_sources : List SourceMetadata :=
  [{ id := "src_a", url := "https://x", title := "T", full_content := "" }]

/-- A report citing the single catalogued source once. -/
def c6_report : List Chunk := [Chunk.plain "Fact ", Chunk.marker "src_a"]

/-- An assessment that flags one weak answer on question q1. -/
def demo_analysis : AgentAnalysis :=
  { overall_assessment := Assessment.needs_improvement
    weak_answers := [{ question_id := "q1", issue := "thin", suggestion := "dig deeper" }]
    knowledge_gaps := []
    conflicting_info := []
    suggested_questions := []
    suggested_searches := ["extra query"] }

/-- A plan containing the single sub-question q1. -/
def demo_plan : ResearchPlan :=
  { main_question := "main"
    sub_questions := [{ question_id := "q1", question := "Q1"
                        search_strategy := "s", importance := "critical" }] }

/-- A stored answer for q1. -/
def demo_qa : QuestionAnswer :=
  { question_id := "q1", question := "Q1", answer := "old answer"
    key_findings := [], sources := [], confidence := "low", completeness := "partial" }

/-- The router state for an assessment flagging q1 (in the plan) and qX
(absent from the plan), inside the iteration budget. -/
def c9_state : RouteState :=
  { current_iteration := 1
    next_step := "re_research"
    agent_analysis := some
      { overall_assessment := Assessment.needs_improvement
        weak_answers := [{ question_id := "q1", issue := "thin", suggestion := "dig deeper" },
                         { question_id := "qX", issue := "thin", suggestion := "other" }]
        knowledge_gaps := []
        conflicting_info := []
        suggested_questions := []
        suggested_searches := ["extra query"] }
    research_plan := some demo_plan
    question_answers := [("q1", demo_qa)] }

/-- A concrete sub-question. -/
def demo_sq : SubQuestion :=
  { question_id := "q1", question := "Q1", search_strategy := "s", importance := "critical" }

/-- A concrete catalogued source. -/
def demo_src : SourceMetadata :=
  { id := "src_1", url := "https://a", title := "T", full_content := "" }

/-- A concrete search hit. -/
def demo_hit : SearchHit := { url := "https://a", score := 3, title := "A" }

/-- An extraction oracle that finds nothing. -/
def no_findings_extract : List SearchHit → List Finding × List SourceMetadata :=
  fun _ => ([], [])

/-- A constant synthesis oracle. -/
def const_synth : List Finding → String := fun _ => "improved"

/-! Generic lemmas about stable insertion sort. -/

theorem insertLe_perm {α : Type} (le : α → α → Bool) (x : α) (l : List α) :
    List.Perm (insertLe le x l) (x :: l) := by
  induction l with
  | nil => exact List.Perm.refl _
  | cons y ys ih =>
    simp only [insertLe]
    split
    · exact List.Perm.refl _
    · exact (ih.cons y).trans (List.Perm.swap x y ys)

theorem mem_insertLe {α : Type} (le : α → α → Bool) (x z : α) (l : List α) :
    z ∈ insertLe le x l ↔ z = x ∨ z ∈ l := by
  rw [(insertLe_perm le x l).mem_iff, List.mem_cons]

theorem pairwise_insertLe {α : Type} (le : α → α → Bool) (R : α → α → Prop)
    (h1 : ∀ a b, le a b = true → R a b) (h2 : ∀ a b, le a b = false → R b a)
    (h3 : Transitive R) (x : α) :
    ∀ l : List α, l.Pairwise R → (insertLe le x l).Pairwise R := by
  intro l
  induction l with
  | nil => intro _; simp [insertLe]
  | cons y ys ih =>
    intro hl
    rcases List.pairwise_cons.mp hl with ⟨hy, hys⟩
    simp only [insertLe]
    split
    case isTrue hxy =>
      refine List.pairwise_cons.mpr ⟨?_, hl⟩
      intro z hz
      rcases List.mem_cons.mp hz with rfl | hz
      · exact h1 _ _ hxy
      · exact h3 (h1 _ _ hxy) (hy z hz)
    case isFalse hxy =>
      refine List.pairwise_cons.mpr ⟨?_, ih hys⟩
      intro z hz
      rcases (mem_insertLe le x z ys).mp hz with rfl | hz
      · exact h2 _ _ (Bool.not_eq_true _ ▸ hxy)
      · exact hy z hz

theorem sortLe_perm {α : Type} (le : α → α → Bool) (l : List α) :
    List.Perm (sortLe le l) l := by
  suffices h : ∀ (l acc : List α),
      List.Perm (l.foldl (fun acc x => insertLe le x acc) acc) (acc ++ l) by
    simpa using h l []
  intro l
  induction l with
  | nil => intro acc; simp
  | cons x xs ih =>
    intro acc
    simp only [List.foldl_cons]
    refine (ih (insertLe le x acc)).trans ?_
    refine (List.Perm.append_right xs (insertLe_perm le x acc)).trans ?_
    exact List.perm_middle.symm

theorem sortLe_pairwise {α : Type} (le : α → α → Bool) (R : α → α → Prop)
    (h1 : ∀ a b, le a b = true → R a b) (h2 : ∀ a b, le a b = false → R b a)
    (h3 : Transitive R) (l : List α) : (sortLe le l).Pairwise R := by
  suffices h : ∀ (l acc : List α), acc.Pairwise R →
      (l.foldl (fun acc x => insertLe le x acc) acc).Pairwise R by
    exact h l [] List.Pairwise.nil
  intro l
  induction l with
  | nil => intro acc hacc; simpa using hacc
  | cons x xs ih =>
    intro acc hacc
    simp only [List.foldl_cons]
    exact ih _ (pairwise_insertLe le R h1 h2 h3 x acc hacc)

theorem insertLe_of_all_false {α : Type} (le : α → α → Bool) (x : α) :
    ∀ l : List α, (∀ y ∈ l, le x y = false) → insertLe le x l = l ++ [x] := by
  intro l
  induction l with
  | nil => intro _; rfl
  | cons y ys ih =>
    intro h
    simp only [insertLe]
    rw [if_neg, ih]
    · simp
    · intro z hz; exact h z (List.mem_cons_of_mem y hz)
    · simp [h y (List.mem_cons_self y ys)]

theorem sortLe_of_sorted {α : Type} (le : α → α → Bool) (l : List α)
    (h : l.Pairwise fun a b => le b a = false) : sortLe le l = l := by
  induction l using List.reverseRecOn with
  | nil => rfl
  | append_singleton l x ih =>
    rcases List.pairwise_append.mp h with ⟨hl, _, hcross⟩
    show (l ++ [x]).foldl (fun acc x => insertLe le x acc) [] = l ++ [x]
    rw [List.foldl_append]
    have hsort : l.foldl (fun acc x => insertLe le x acc) [] = l := ih hl
    simp only [List.foldl_cons, List.foldl_nil, hsort]
    exact insertLe_of_all_false le x l fun y hy => hcross y hy x (by simp)

/-! The code point order on strings is total, transitive and antisymmetric. -/

theorem charListLe_total : ∀ as bs : List Char,
    charListLe as bs = true ∨ charListLe bs as = true := by
  intro as
  induction as with
  | nil => intro bs; left; cases bs <;> rfl
  | cons a as ih =>
    intro bs
    cases bs with
    | nil => right; rfl
    | cons b bs =>
      rcases lt_trichotomy a b with hab | hab | hab
      · left; simp [charListLe, hab]
      · subst hab
        rcases ih bs with h | h
        · left; simpa [charListLe, lt_irrefl] using h
        · right; simpa [charListLe, lt_irrefl] using h
      · right; simp [charListLe, hab]

theorem charListLe_trans : ∀ as bs cs : List Char,
    charListLe as bs = true → charListLe bs cs = true → charListLe as cs = true := by
  intro as
  induction as with
  | nil => intro bs cs _ _; cases cs <;> cases bs <;> simp_all [charListLe]
  | cons a as ih =>
    intro bs cs h1 h2
    cases bs with
    | nil => simp [charListLe] at h1
    | cons b bs =>
      cases cs with
      | nil => simp [charListLe] at h2
      | cons c cs =>
        rcases lt_trichotomy a b with hab | hab | hab
        · rcases lt_trichotomy b c with hbc | hbc | hbc
          · simp [charListLe, lt_trans hab hbc]
          · subst hbc; simp [charListLe, hab]
          · rcases lt_trichotomy a c with hac | hac | hac
            · simp [charListLe, hac]
            · subst hac; simp [charListLe, hbc, asymm hbc, lt_asymm hab] at h2
            · exfalso
              simp [charListLe, hbc, lt_asymm hbc] at h2
        · subst hab
          rcases lt_trichotomy a c with hac | hac | hac
          · simp [charListLe, hac]
          · subst hac
            simp only [charListLe, lt_irrefl, if_false] at h1 h2 ⊢
            exact ih bs cs h1 h2
          · exfalso
            simp [charListLe, hac, lt_asymm hac] at h2
        · exfalso
          simp [charListLe, hab, lt_asymm hab] at h1

theorem charListLe_antisymm : ∀ as bs : List Char,
    charListLe as bs = true → charListLe bs as = true → as = bs := by
  intro as
  induction as with
  | nil => intro bs _ h2; cases bs with
    | nil => rfl
    | cons b bs => simp [charListLe] at h2
  | cons a as ih =>
    intro bs h1 h2
    cases bs with
    | nil => simp [charListLe] at h1
    | cons b bs =>
      rcases lt_trichotomy a b with hab | hab | hab
      · exfalso; simp [charListLe, hab, lt_asymm hab] at h2
      · subst hab
        simp only [charListLe, lt_irrefl, if_false] at h1 h2
        rw [ih bs h1 h2]
      · exfalso; simp [charListLe, hab, lt_asymm hab] at h1

theorem strLe_total (a b : String) : strLe a b = true ∨ strLe b a = true :=
  charListLe_total a.data b.data

theorem strLe_trans {a b c : String} (h1 : strLe a b = true) (h2 : strLe b c = true) :
    strLe a c = true :=
  charListLe_trans a.data b.data c.data h1 h2

theorem strLe_antisymm {a b : String} (h1 : strLe a b = true) (h2 : strLe b a = true) :
    a = b := by
  have h := charListLe_antisymm a.data b.data h1 h2
  cases a; cases b; exact congrArg String.mk (by simpa using h)

/-! Lemmas about the dedup store of the candidate ranker. -/

theorem self_mem_setKey : ∀ (store : List SearchHit) (r : SearchHit), r ∈ setKey store r := by
  intro store r
  induction store with
  | nil => simp [setKey]
  | cons s ss ih =>
    simp only [setKey]
    split
    · exact List.mem_cons_self _ _
    · exact List.mem_cons_of_mem s ih

theorem mem_setKey : ∀ (store : List SearchHit) (r z : SearchHit),
    z ∈ setKey store r → z = r ∨ z ∈ store := by
  intro store r z
  induction store with
  | nil => intro h; simpa [setKey] using h
  | cons s ss ih =>
    simp only [setKey]
    split
    · intro h
      rcases List.mem_cons.mp h with rfl | h
      · exact Or.inl rfl
      · exact Or.inr (List.mem_cons_of_mem s h)
    · intro h
      rcases List.mem_cons.mp h with rfl | h
      · exact Or.inr (List.mem_cons_self _ _)
      · rcases ih h with h | h
        · exact Or.inl h
        · exact Or.inr (List.mem_cons_of_mem s h)

theorem mem_setKey_of_ne : ∀ (store : List SearchHit) (r z : SearchHit),
    z ∈ store → z.url ≠ r.url → z ∈ setKey store r := by
  intro store r z
  induction store with
  | nil => intro h _; simp at h
  | cons s ss ih =>
    intro hz hne
    simp only [setKey]
    split
    case isTrue hs =>
      rcases List.mem_cons.mp hz with rfl | hz
      · exact absurd hs hne
      · exact List.mem_cons_of_mem r hz
    case isFalse hs =>
      rcases List.mem_cons.mp hz with rfl | hz
      · exact List.mem_cons_self _ _
      · exact List.mem_cons_of_mem s (ih hz hne)

theorem map_url_setKey : ∀ (store : List SearchHit) (r : SearchHit),
    (∃ s0 ∈ store, s0.url = r.url) →
    (setKey store r).map (·.url) = store.map (·.url) := by
  intro store r
  induction store with
  | nil => rintro ⟨s0, h, -⟩; simp at h
  | cons s ss ih =>
    rintro ⟨s0, hs0, hurl⟩
    simp only [setKey]
    split
    case isTrue hs => simp [hs]
    case isFalse hs =>
      rcases List.mem_cons.mp hs0 with rfl | hs0
      · exact absurd hurl hs
      · simp only [List.map_cons]
        rw [ih ⟨s0, hs0, hurl⟩]

theorem url_unique : ∀ (store : List SearchHit), ((store.map (·.url)).Nodup) →
    ∀ h₁ ∈ store, ∀ h₂ ∈ store, h₁.url = h₂.url → h₁ = h₂ := by
  intro store
  induction store with
  | nil => intro _ h₁ m1; simp at m1
  | cons s ss ih =>
    intro hnd h₁ m1 h₂ m2 hu
    rw [List.map_cons] at hnd
    rcases List.nodup_cons.mp hnd with ⟨hs, hss⟩
    rcases List.mem_cons.mp m1 with h1e | h1m
    · rcases List.mem_cons.mp m2 with h2e | h2m
      · rw [h1e, h2e]
      · exfalso; apply hs; rw [← h1e, hu]; exact List.mem_map_of_mem (·.url) h2m
    · rcases List.mem_cons.mp m2 with h2e | h2m
      · exfalso; apply hs; rw [← h2e, ← hu]; exact List.mem_map_of_mem (·.url) h1m
      · exact ih hss h₁ h1m h₂ h2m hu

theorem updateStore_inv {store : List SearchHit} {r : SearchHit} (h : StoreInv store) :
    StoreInv (updateStore store r) := by
  obtain ⟨hnd, hne⟩ := h
  unfold updateStore
  split
  · exact ⟨hnd, hne⟩
  case isFalse hr =>
    split
    case h_1 hfind =>
      constructor
      · have hnot : r.url ∉ store.map (·.url) := by
          intro hmem
          rcases List.mem_map.mp hmem with ⟨s, hs, hurl⟩
          have hne2 : ¬ (s.url == r.url) = true := List.find?_eq_none.mp hfind s hs
          rw [beq_iff_eq] at hne2
          exact hne2 hurl
        simpa [List.nodup_append, hnd] using hnot
      · intro s hs
        rcases List.mem_append.mp hs with hs | hs
        · exact hne s hs
        · simp only [List.mem_singleton] at hs; subst hs; exact hr
    case h_2 s0 hfind =>
      have hs0 : s0 ∈ store := List.mem_of_find?_eq_some hfind
      have hs0url : s0.url = r.url := by simpa using List.find?_some hfind
      split
      · constructor
        · rw [map_url_setKey store r ⟨s0, hs0, hs0url⟩]; exact hnd
        · intro s hs
          rcases mem_setKey store r s hs with rfl | hs
          · exact hr
          · exact hne s hs
      · exact ⟨hnd, hne⟩

theorem mem_updateStore {store : List SearchHit} {r : SearchHit} (z : SearchHit)
    (h : z ∈ updateStore store r) : z ∈ store ∨ z = r := by
  unfold updateStore at h
  split at h
  · exact Or.inl h
  · split at h
    · rcases List.mem_append.mp h with h | h
      · exact Or.inl h
      · simp only [List.mem_singleton] at h; exact Or.inr h
    · split at h
      · rcases mem_setKey store r z h with h | h
        · exact Or.inr h
        · exact Or.inl h
      · exact Or.inl h

theorem foldl_store_mem : ∀ (l store : List SearchHit) (z : SearchHit),
    z ∈ l.foldl updateStore store → z ∈ store ∨ z ∈ l := by
  intro l
  induction l with
  | nil => intro store z h; exact Or.inl h
  | cons r l ih =>
    intro store z h
    rcases ih (updateStore store r) z h with h | h
    · rcases mem_updateStore z h with h | rfl
      · exact Or.inl h
      · exact Or.inr (List.mem_cons_self _ _)
    · exact Or.inr (List.mem_cons_of_mem r h)

theorem foldl_store_inv : ∀ (l store : List SearchHit), StoreInv store →
    StoreInv (l.foldl updateStore store) := by
  intro l
  induction l with
  | nil => intro store h; exact h
  | cons r l ih => intro store h; exact ih _ (updateStore_inv h)

theorem updateStore_entry_mono {store : List SearchHit} {r : SearchHit} {u : String}
    {sc : Int} (hinv : StoreInv store) (h : ∃ h0 ∈ store, h0.url = u ∧ sc ≤ h0.score) :
    ∃ h0 ∈ updateStore store r, h0.url = u ∧ sc ≤ h0.score := by
  obtain ⟨h0, hmem, hurl, hsc⟩ := h
  unfold updateStore
  split
  · exact ⟨h0, hmem, hurl, hsc⟩
  case isFalse hr =>
    split
    case h_1 hfind => exact ⟨h0, List.mem_append_left _ hmem, hurl, hsc⟩
    case h_2 s0 hfind =>
      have hs0 : s0 ∈ store := List.mem_of_find?_eq_some hfind
      have hs0url : s0.url = r.url := by simpa using List.find?_some hfind
      split
      case isTrue hlt =>
        by_cases hcase : h0.url = r.url
        · have : h0 = s0 := url_unique store hinv.1 h0 hmem s0 hs0 (hcase.trans hs0url.symm)
          subst this
          exact ⟨r, self_mem_setKey store r, by rw [← hs0url, hurl],
            le_of_lt (lt_of_le_of_lt hsc hlt)⟩
        · exact ⟨h0, mem_setKey_of_ne store r h0 hmem hcase, hurl, hsc⟩
      · exact ⟨h0, hmem, hurl, hsc⟩

theorem updateStore_creates {store : List SearchHit} {r : SearchHit} (hr : r.url ≠ "") :
    ∃ h0 ∈ updateStore store r, h0.url = r.url ∧ r.score ≤ h0.score := by
  unfold updateStore
  rw [if_neg hr]
  split
  case h_1 hfind => exact ⟨r, List.mem_append_right _ (List.mem_singleton.mpr rfl), rfl, le_refl _⟩
  case h_2 s0 hfind =>
    have hs0 : s0 ∈ store := List.mem_of_find?_eq_some hfind
    have hs0url : s0.url = r.url := by simpa using List.find?_some hfind
    split
    case isTrue hlt => exact ⟨r, self_mem_setKey store r, rfl, le_refl _⟩
    case isFalse hlt => exact ⟨s0, hs0, hs0url, le_of_not_lt hlt⟩

theorem foldl_entry_mono : ∀ (l store : List SearchHit) (u : String) (sc : Int),
    StoreInv store → (∃ h0 ∈ store, h0.url = u ∧ sc ≤ h0.score) →
    ∃ h0 ∈ l.foldl updateStore store, h0.url = u ∧ sc ≤ h0.score := by
  intro l
  induction l with
  | nil => intro store u sc _ h; exact h
  | cons r l ih =>
    intro store u sc hinv h
    exact ih _ u sc (updateStore_inv hinv) (updateStore_entry_mono hinv h)

theorem foldl_entry_exists : ∀ (l store : List SearchHit), StoreInv store →
    ∀ r ∈ l, r.url ≠ "" →
    ∃ h0 ∈ l.foldl updateStore store, h0.url = r.url ∧ r.score ≤ h0.score := by
  intro l
  induction l with
  | nil => intro store _ r hr; simp at hr
  | cons a l ih =>
    intro store hinv r hr hru
    rcases List.mem_cons.mp hr with rfl | hr
    · exact foldl_entry_mono l _ r.url r.score (updateStore_inv hinv) (updateStore_creates hru)
    · exact ih _ (updateStore_inv hinv) r hr hru

theorem dedupByUrl_inv (hits : List SearchHit) : StoreInv (dedupByUrl hits) :=
  foldl_store_inv hits [] ⟨List.nodup_nil, by intro s h; simp at h⟩

theorem sortByScoreDesc_perm (l : List SearchHit) :
    List.Perm (sortByScoreDesc l) l :=
  sortLe_perm hitBefore l

theorem sortByScoreDesc_sorted (l : List SearchHit) : SortedDesc (sortByScoreDesc l) := by
  refine sortLe_pairwise hitBefore _ ?_ ?_ ?_ l
  · intro a b h
    exact le_of_lt (of_decide_eq_true h)
  · intro a b h
    exact not_lt.mp (of_decide_eq_false h)
  · intro a b c hab hbc
    exact le_trans hbc hab

theorem dedup_of_fresh : ∀ (l store : List SearchHit),
    (((store ++ l).map (·.url)).Nodup) → (∀ h0 ∈ l, h0.url ≠ "") →
    l.foldl updateStore store = store ++ l := by
  intro l
  induction l with
  | nil => intro store _ _; simp
  | cons r l ih =>
    intro store hnd hne
    have hru : r.url ≠ "" := hne r (List.mem_cons_self r l)
    have hfresh : store.find? (fun s => s.url == r.url) = none := by
      rw [List.find?_eq_none]
      intro s hs hbeq
      rw [beq_iff_eq] at hbeq
      have hnd2 := hnd
      rw [List.map_append] at hnd2
      rcases List.nodup_append.mp hnd2 with ⟨-, -, hdisj⟩
      exact hdisj (List.mem_map_of_mem (·.url) hs)
        (by rw [hbeq, List.map_cons]; exact List.mem_cons_self _ _)
    have hstep : updateStore store r = store ++ [r] := by
      unfold updateStore
      rw [if_neg hru, hfresh]
    calc (r :: l).foldl updateStore store
        = l.foldl updateStore (store ++ [r]) := by rw [List.foldl_cons, hstep]
      _ = (store ++ [r]) ++ l := by
          refine ih (store ++ [r]) ?_ (fun h0 h => hne h0 (List.mem_cons_of_mem r h))
          simpa using hnd
      _ = store ++ r :: l := by simp

/-- C3: for every input hit list, the ranker keeps at most one entry per
URL, each surviving entry is an input hit carrying the maximum input score
for its URL, the output is sorted by score descending with at most ten
entries, and the empty input yields the empty output. -/
theorem C3_theorem (hits : List SearchHit) :
    ((rank hits).map (·.url)).Nodup
    ∧ (rank hits).length ≤ 10
    ∧ SortedDesc (rank hits)
    ∧ (∀ h0 ∈ rank hits, h0 ∈ hits ∧ h0.score ∈ scoresFor hits h0.url
        ∧ ∀ sc ∈ scoresFor hits h0.url, sc ≤ h0.score)
    ∧ rank [] = [] := by
  have hinv : StoreInv (dedupByUrl hits) := dedupByUrl_inv hits
  have hperm := sortByScoreDesc_perm (dedupByUrl hits)
  have hmem_store : ∀ h0 ∈ rank hits, h0 ∈ dedupByUrl hits := by
    intro h0 h
    exact hperm.mem_iff.mp (List.mem_of_mem_take h)
  refine ⟨?_, ?_, ?_, ?_, rfl⟩
  · have h1 : ((sortByScoreDesc (dedupByUrl hits)).map (·.url)).Nodup :=
      ((hperm.map (·.url)).nodup_iff).mpr hinv.1
    exact h1.sublist (List.Sublist.map (fun h0 : SearchHit => h0.url)
      (List.take_sublist 10 (sortByScoreDesc (dedupByUrl hits))))
  · exact List.length_take_le 10 _
  · exact (sortByScoreDesc_sorted (dedupByUrl hits)).sublist (List.take_sublist 10 _)
  · intro h0 h
    have hst : h0 ∈ dedupByUrl hits := hmem_store h0 h
    have hin : h0 ∈ hits := by
      rcases foldl_store_mem hits [] h0 hst with hc | hc
      · simp at hc
      · exact hc
    refine ⟨hin, ?_, ?_⟩
    · unfold scoresFor
      refine List.mem_map_of_mem (·.score) (List.mem_filter.mpr ⟨hin, ?_⟩)
      simp
    · intro sc hsc
      unfold scoresFor at hsc
      rcases List.mem_map.mp hsc with ⟨r, hr, rfl⟩
      rcases List.mem_filter.mp hr with ⟨hrmem, hrurl⟩
      have hrurl : r.url = h0.url := by simpa using hrurl
      have hone : r.url ≠ "" := by
        rw [hrurl]; exact hinv.2 h0 hst
      rcases foldl_entry_exists hits []
          ⟨List.nodup_nil, by intro s hs; simp at hs⟩ r hrmem hone with ⟨h1, hm1, hu1, hs1⟩
      have : h1 = h0 := url_unique _ hinv.1 h1 hm1 h0 hst (by rw [hu1, hrurl])
      rw [← this]
      exact hs1

/-- C3 witness: the properties instantiated on a concrete hit list with a
duplicated URL, checking the inner membership hypotheses concretely. -/
theorem C3_witness :
    (rank [{ url := "https://a", score := 1, title := "A1" },
           { url := "https://a", score := 4, title := "A2" },
           { url := "https://b", score := 2, title := "B" }]
      = [{ url := "https://a", score := 4, title := "A2" },
         { url := "https://b", score := 2, title := "B" }])
    ∧ ({ url := "https://a", score := 4, title := "A2" } : SearchHit)
        ∈ rank [{ url := "https://a", score := 1, title := "A1" },
                { url := "https://a", score := 4, title := "A2" },
                { url := "https://b", score := 2, title := "B" }]
    ∧ (∀ sc ∈ scoresFor [{ url := "https://a", score := 1, title := "A1" },
                         { url := "https://a", score := 4, title := "A2" },
                         { url := "https://b", score := 2, title := "B" }] "https://a",
        sc ≤ 4) := by
  refine ⟨by decide, ?_, ?_⟩
  · exact (by decide : ({ url := "https://a", score := 4, title := "A2" } : SearchHit)
        ∈ rank [{ url := "https://a", score := 1, title := "A1" },
                { url := "https://a", score := 4, title := "A2" },
                { url := "https://b", score := 2, title := "B" }])
  · intro sc hsc
    exact ((C3_theorem [{ url := "https://a", score := 1, title := "A1" },
                        { url := "https://a", score := 4, title := "A2" },
                        { url := "https://b", score := 2, title := "B" }]).2.2.2.1
      { url := "https://a", score := 4, title := "A2" } (by decide)).2.2 sc hsc

/-- C4 counterexample: a single hit whose result dict has no url key
satisfies the stated hypotheses (trivially deduplicated by URL, sorted by
score descending, length at most 10), yet the ranker drops it because
r.get("url") is falsy, so the list does not come back unchanged. -/
theorem C4_counterexample :
    ((c4_list.map (·.url)).Nodup ∧ SortedDesc c4_list ∧ c4_list.length ≤ 10)
    ∧ rank c4_list ≠ c4_list := by
  refine ⟨⟨by decide, by decide, by decide⟩, by decide⟩

/-- C4 amended: ranking is idempotent on lists that are deduplicated by
URL, sorted by score descending, of length at most 10, and in which every
hit carries a non-empty URL (which every ranker output does; the original
claim omitted the last condition). -/
theorem C4_amended (l : List SearchHit) (h1 : (l.map (·.url)).Nodup)
    (h2 : ∀ h0 ∈ l, h0.url ≠ "") (h3 : SortedDesc l) (h4 : l.length ≤ 10) :
    rank l = l := by
  have hd : dedupByUrl l = l := by
    have h := dedup_of_fresh l [] (by simpa using h1) h2
    simpa using h
  have hs : sortByScoreDesc l = l := by
    refine sortLe_of_sorted hitBefore l ?_
    refine h3.imp ?_
    intro a b hab
    exact decide_eq_false (not_lt.mpr hab)
  show (sortByScoreDesc (dedupByUrl l)).take 10 = l
  rw [hd, hs, List.take_of_length_le h4]

/-- C4 witness: the amended idempotence at a concrete already-ranked list. -/
theorem C4_witness :
    ((w4_list.map (·.url)).Nodup ∧ (∀ h0 ∈ w4_list, h0.url ≠ "")
      ∧ SortedDesc w4_list ∧ w4_list.length ≤ 10)
    ∧ rank w4_list = w4_list :=
  ⟨⟨by decide, by decide, by decide, by decide⟩,
    C4_amended w4_list (by decide) (by decide) (by decide) (by decide)⟩


/-! Lemmas about the citation normalizer. -/

theorem markersOf_nil : markersOf [] = [] := rfl

theorem markersOf_cons_plain (s : String) (rest : List Chunk) :
    markersOf (Chunk.plain s :: rest) = markersOf rest := rfl

theorem markersOf_cons_marker (sid : String) (rest : List Chunk) :
    markersOf (Chunk.marker sid :: rest) = sid :: markersOf rest := rfl

theorem markersOf_cons_heading (rest : List Chunk) :
    markersOf (Chunk.refsHeading :: rest) = markersOf rest := rfl

theorem markersOf_cons_entry (n : Nat) (t u : String) (rest : List Chunk) :
    markersOf (Chunk.refEntry n t u :: rest) = markersOf rest := rfl

theorem replaceMarkers_nil (used : List String) : replaceMarkers used [] = [] := rfl

theorem replaceMarkers_cons_plain (used : List String) (s : String) (rest : List Chunk) :
    replaceMarkers used (Chunk.plain s :: rest) = Chunk.plain s :: replaceMarkers used rest := rfl

theorem replaceMarkers_cons_marker (used : List String) (sid : String) (rest : List Chunk) :
    replaceMarkers used (Chunk.marker sid :: rest)
      = Chunk.plain (renderNum used sid) :: replaceMarkers used rest := rfl

theorem replaceMarkers_cons_heading (used : List String) (rest : List Chunk) :
    replaceMarkers used (Chunk.refsHeading :: rest)
      = Chunk.refsHeading :: replaceMarkers used rest := rfl

theorem replaceMarkers_cons_entry (used : List String) (n : Nat) (t u : String)
    (rest : List Chunk) :
    replaceMarkers used (Chunk.refEntry n t u :: rest)
      = Chunk.refEntry n t u :: replaceMarkers used rest := rfl

theorem stripRefs_nil : stripRefs [] = [] := rfl

theorem stripRefs_cons_plain (s : String) (rest : List Chunk) :
    stripRefs (Chunk.plain s :: rest) = Chunk.plain s :: stripRefs rest := rfl

theorem stripRefs_cons_marker (sid : String) (rest : List Chunk) :
    stripRefs (Chunk.marker sid :: rest) = Chunk.marker sid :: stripRefs rest := rfl

theorem stripRefs_cons_heading (rest : List Chunk) :
    stripRefs (Chunk.refsHeading :: rest) = [] := rfl

theorem stripRefs_cons_entry (n : Nat) (t u : String) (rest : List Chunk) :
    stripRefs (Chunk.refEntry n t u :: rest) = Chunk.refEntry n t u :: stripRefs rest := rfl

theorem markersOf_append (l1 l2 : List Chunk) :
    markersOf (l1 ++ l2) = markersOf l1 ++ markersOf l2 :=
  List.filterMap_append l1 l2 _

theorem markersOf_replaceMarkers (used : List String) (report : List Chunk) :
    markersOf (replaceMarkers used report) = [] := by
  induction report with
  | nil => rfl
  | cons c rest ih =>
    cases c with
    | plain s => rw [replaceMarkers_cons_plain, markersOf_cons_plain]; exact ih
    | marker sid => rw [replaceMarkers_cons_marker, markersOf_cons_plain]; exact ih
    | refsHeading => rw [replaceMarkers_cons_heading, markersOf_cons_heading]; exact ih
    | refEntry n t u => rw [replaceMarkers_cons_entry, markersOf_cons_entry]; exact ih

theorem replaceMarkers_of_no_markers (used : List String) :
    ∀ report : List Chunk, markersOf report = [] → replaceMarkers used report = report := by
  intro report
  induction report with
  | nil => intro _; rfl
  | cons c rest ih =>
    intro h
    cases c with
    | marker sid => rw [markersOf_cons_marker] at h; exact absurd h (List.cons_ne_nil _ _)
    | plain s =>
      rw [markersOf_cons_plain] at h
      rw [replaceMarkers_cons_plain, ih h]
    | refsHeading =>
      rw [markersOf_cons_heading] at h
      rw [replaceMarkers_cons_heading, ih h]
    | refEntry n t u =>
      rw [markersOf_cons_entry] at h
      rw [replaceMarkers_cons_entry, ih h]

theorem refsHeading_not_mem_stripRefs : ∀ l : List Chunk,
    Chunk.refsHeading ∉ stripRefs l := by
  intro l
  induction l with
  | nil => simp [stripRefs_nil]
  | cons c rest ih =>
    cases c with
    | refsHeading => rw [stripRefs_cons_heading]; simp
    | plain s =>
      rw [stripRefs_cons_plain]
      intro h
      rcases List.mem_cons.mp h with h | h
      · exact Chunk.noConfusion h
      · exact ih h
    | marker sid =>
      rw [stripRefs_cons_marker]
      intro h
      rcases List.mem_cons.mp h with h | h
      · exact Chunk.noConfusion h
      · exact ih h
    | refEntry n t u =>
      rw [stripRefs_cons_entry]
      intro h
      rcases List.mem_cons.mp h with h | h
      · exact Chunk.noConfusion h
      · exact ih h

theorem stripRefs_of_no_heading : ∀ l : List Chunk,
    Chunk.refsHeading ∉ l → stripRefs l = l := by
  intro l
  induction l with
  | nil => intro _; rfl
  | cons c rest ih =>
    intro h
    have hrest : Chunk.refsHeading ∉ rest := fun hm => h (List.mem_cons_of_mem c hm)
    cases c with
    | refsHeading => exact absurd (List.mem_cons_self _ _) h
    | plain s => rw [stripRefs_cons_plain, ih hrest]
    | marker sid => rw [stripRefs_cons_marker, ih hrest]
    | refEntry n t u => rw [stripRefs_cons_entry, ih hrest]

theorem stripRefs_idem (l : List Chunk) : stripRefs (stripRefs l) = stripRefs l :=
  stripRefs_of_no_heading (stripRefs l) (refsHeading_not_mem_stripRefs l)

theorem stripRefs_append_heading : ∀ (l rest : List Chunk),
    Chunk.refsHeading ∉ l → stripRefs (l ++ Chunk.refsHeading :: rest) = l := by
  intro l rest
  induction l with
  | nil => intro _; rfl
  | cons c front ih =>
    intro h
    have hfront : Chunk.refsHeading ∉ front := fun hm => h (List.mem_cons_of_mem c hm)
    cases c with
    | refsHeading => exact absurd (List.mem_cons_self _ _) h
    | plain s => rw [List.cons_append, stripRefs_cons_plain, ih hfront]
    | marker sid => rw [List.cons_append, stripRefs_cons_marker, ih hfront]
    | refEntry n t u => rw [List.cons_append, stripRefs_cons_entry, ih hfront]

theorem markersOf_stripRefs : ∀ l : List Chunk,
    markersOf l = [] → markersOf (stripRefs l) = [] := by
  intro l
  induction l with
  | nil => intro _; rfl
  | cons c rest ih =>
    intro h
    cases c with
    | marker sid => rw [markersOf_cons_marker] at h; exact absurd h (List.cons_ne_nil _ _)
    | refsHeading => rw [stripRefs_cons_heading]; rfl
    | plain s =>
      rw [markersOf_cons_plain] at h
      rw [stripRefs_cons_plain, markersOf_cons_plain]
      exact ih h
    | refEntry n t u =>
      rw [markersOf_cons_entry] at h
      rw [stripRefs_cons_entry, markersOf_cons_entry]
      exact ih h

theorem markersOf_refEntries (used : List String) (sources : List SourceMetadata) :
    markersOf (refEntries used sources) = [] := by
  refine List.filterMap_eq_nil_iff.mpr ?_
  intro c hc
  rcases List.mem_filterMap.mp hc with ⟨sid, _, hmk⟩
  rcases hn : id_num sid used with - | n <;> rcases hf : find_source sources sid with - | s <;>
    rw [hn, hf] at hmk
  · exact Option.noConfusion hmk
  · exact Option.noConfusion hmk
  · exact Option.noConfusion hmk
  · have hce : Chunk.refEntry n s.title s.url = c := Option.some_inj.mp hmk
    rw [← hce]

theorem markersOf_format_citations (report : List Chunk) (sources : List SourceMetadata) :
    markersOf (format_citations report sources) = [] := by
  simp only [format_citations]
  split
  · exact markersOf_stripRefs _ (markersOf_replaceMarkers _ _)
  · rw [markersOf_append, markersOf_cons_heading, markersOf_refEntries,
      markersOf_stripRefs _ (markersOf_replaceMarkers _ _)]
    rfl

theorem format_citations_of_no_markers (report : List Chunk) (sources : List SourceMetadata)
    (h : markersOf report = []) : format_citations report sources = stripRefs report := by
  have hused : used_ids report = [] := by rw [used_ids, h]; rfl
  simp only [format_citations]
  rw [hused, if_pos rfl, replaceMarkers_of_no_markers _ _ h]

/-- C6 counterexample: on a report citing one catalogued source, a second
run of the normalizer strips the reference list the first run appended, so
it is not idempotent on its own output. -/
theorem C6_counterexample :
    format_citations (format_citations c6_report c6_sources) c6_sources
      ≠ format_citations c6_report c6_sources := by decide

/-- C6 amended: a second run returns the first output with its appended
reference section removed (the strip regex deletes it and, markers being
gone, nothing is re-appended), so the normalizer is idempotent exactly when
the input contains no citation markers. -/
theorem C6_amended (sources : List SourceMetadata) (report : List Chunk) :
    format_citations (format_citations report sources) sources
      = stripRefs (format_citations report sources)
    ∧ (markersOf report = [] →
        format_citations (format_citations report sources) sources
          = format_citations report sources) := by
  constructor
  · exact format_citations_of_no_markers _ sources (markersOf_format_citations report sources)
  · intro h
    rw [format_citations_of_no_markers _ sources (markersOf_format_citations report sources),
      format_citations_of_no_markers report sources h]
    exact stripRefs_idem report

/-- C6 witness: the amended idempotence at a concrete marker-free report. -/
theorem C6_witness :
    markersOf c6_plain_report = []
    ∧ format_citations (format_citations c6_plain_report c6_sources) c6_sources
      = format_citations c6_plain_report c6_sources :=
  ⟨by decide, (C6_amended c6_sources c6_plain_report).2 (by decide)⟩

theorem used_ids_sorted (r : List Chunk) :
    (used_ids r).Pairwise (fun a b => strLe a b = true) := by
  refine sortLe_pairwise strLe _ ?_ ?_ ?_ _
  · intro a b h; exact h
  · intro a b h
    rcases strLe_total a b with h1 | h1
    · rw [h1] at h; cases h
    · exact h1
  · intro a b c h1 h2; exact strLe_trans h1 h2

theorem used_ids_perm (r : List Chunk) :
    List.Perm (used_ids r) (markersOf r).dedup :=
  sortLe_perm strLe _

/-- C5: the display numbering depends only on the set of cited identifiers
(two reports citing the same identifier set get identical sorted identifier
lists, hence identical numbering), and on a report citing src_b, src_a,
src_c in that textual order the numbers are src_a = 1, src_b = 2, src_c = 3
with the markers rewritten accordingly. -/
theorem C5_theorem :
    (∀ r1 r2 : List Chunk, (∀ sid, sid ∈ markersOf r1 ↔ sid ∈ markersOf r2) →
      used_ids r1 = used_ids r2)
    ∧ used_ids c5_demo = ["src_a", "src_b", "src_c"]
    ∧ id_num "src_a" (used_ids c5_demo) = some 1
    ∧ id_num "src_b" (used_ids c5_demo) = some 2
    ∧ id_num "src_c" (used_ids c5_demo) = some 3
    ∧ replaceMarkers (used_ids c5_demo) c5_demo
      = [Chunk.plain "[2]", Chunk.plain " and ", Chunk.plain "[1]",
         Chunk.plain " then ", Chunk.plain "[3]"] := by
  refine ⟨?_, by decide, by decide, by decide, by decide, by decide⟩
  intro r1 r2 hset
  have hp : List.Perm (markersOf r1).dedup (markersOf r2).dedup := by
    refine (List.perm_ext_iff_of_nodup (markersOf r1).nodup_dedup
      (markersOf r2).nodup_dedup).mpr ?_
    intro a
    rw [List.mem_dedup, List.mem_dedup]
    exact hset a
  have hperm : List.Perm (used_ids r1) (used_ids r2) :=
    (used_ids_perm r1).trans (hp.trans (used_ids_perm r2).symm)
  exact @List.eq_of_perm_of_sorted String (fun a b => strLe a b = true)
    ⟨fun a b h1 h2 => strLe_antisymm h1 h2⟩ _ _ hperm (used_ids_sorted r1) (used_ids_sorted r2)

/-- C5 witness: two concrete reports citing the same identifiers in
different textual orders receive the same numbering. -/
theorem C5_witness :
    (∀ sid, sid ∈ markersOf c5_demo ↔ sid ∈ markersOf c5_demo2)
    ∧ used_ids c5_demo = used_ids c5_demo2 := by
  have hset : ∀ sid, sid ∈ markersOf c5_demo ↔ sid ∈ markersOf c5_demo2 := by
    intro sid
    show sid ∈ ["src_b", "src_a", "src_c"] ↔ sid ∈ ["src_a", "src_b", "src_c"]
    constructor <;> intro h <;> simp only [List.mem_cons, List.not_mem_nil, or_false] at h ⊢ <;>
      tauto
  exact ⟨hset, C5_theorem.1 _ _ hset⟩

theorem id_num_pos : ∀ (l : List String) (sid : String) (n : Nat),
    id_num sid l = some n → 1 ≤ n := by
  intro l
  induction l with
  | nil => intro sid n h; exact Option.noConfusion h
  | cons s ss ih =>
    intro sid n h
    rw [id_num] at h
    split at h
    · rw [← Option.some_inj.mp h]
    · rcases Option.map_eq_some'.mp h with ⟨m, _, hm⟩
      rw [← hm]
      exact Nat.le_add_left 1 m

theorem id_num_mem : ∀ (l : List String) (sid : String), sid ∈ l →
    ∃ n, id_num sid l = some n := by
  intro l
  induction l with
  | nil => intro sid h; simp at h
  | cons s ss ih =>
    intro sid h
    by_cases hs : s = sid
    · exact ⟨1, by rw [id_num, if_pos hs]⟩
    · rcases List.mem_cons.mp h with he | hm
      · exact absurd he.symm hs
      · rcases ih sid hm with ⟨m, hm2⟩
        exact ⟨m + 1, by rw [id_num, if_neg hs, hm2]; rfl⟩

theorem id_num_inj : ∀ (l : List String) (a b : String) (n : Nat),
    id_num a l = some n → id_num b l = some n → a = b := by
  intro l
  induction l with
  | nil => intro a b n h; exact Option.noConfusion h
  | cons s ss ih =>
    intro a b n ha hb
    rw [id_num] at ha hb
    by_cases hsa : s = a
    · rw [if_pos hsa] at ha
      by_cases hsb : s = b
      · rw [← hsa, hsb]
      · rw [if_neg hsb] at hb
        rcases Option.map_eq_some'.mp hb with ⟨m, hm, hm1⟩
        have h1 : m + 1 = n := hm1
        have h2 : n = 1 := (Option.some_inj.mp ha).symm
        have := id_num_pos ss b m hm
        omega
    · rw [if_neg hsa] at ha
      rcases Option.map_eq_some'.mp ha with ⟨m, hm, hm1⟩
      by_cases hsb : s = b
      · rw [if_pos hsb] at hb
        have h2 : n = 1 := (Option.some_inj.mp hb).symm
        have := id_num_pos ss a m hm
        omega
      · rw [if_neg hsb] at hb
        rcases Option.map_eq_some'.mp hb with ⟨m2, hm2, hm21⟩
        have hmm : m = m2 := by omega
        exact ih a b m hm (hmm ▸ hm2)

/-- C7 counterexample: a marker citing an identifier absent from the
catalogue is rendered with display number 1, not with the literal [?]
placeholder, and the run still appends a references heading. -/
theorem C7_counterexample :
    find_source ([] : List SourceMetadata) "src_zzz" = none
    ∧ format_citations [Chunk.marker "src_zzz"] [] = [Chunk.plain "[1]", Chunk.refsHeading]
    ∧ Chunk.plain "[?]" ∉ format_citations [Chunk.marker "src_zzz"] [] := by decide

/-- C7 amended: every identifier found in the text is assigned a display
number (the [?] default of the substitution callback is unreachable because
id_to_num is keyed on exactly the identifiers the same regex finds), so an
unresolvable marker is rewritten to its bracketed number like any other;
its only special treatment is that no entry for it appears in the appended
reference list.  The normalizer is a total function, so it never raises. -/
theorem C7_amended (report : List Chunk) (sources : List SourceMetadata) (sid : String)
    (h : sid ∈ markersOf report) :
    (∃ n : Nat, 1 ≤ n ∧ id_num sid (used_ids report) = some n
      ∧ renderNum (used_ids report) sid = "[" ++ toString n ++ "]")
    ∧ id_num sid (used_ids report) ≠ none
    ∧ (find_source sources sid = none →
        ∀ n, id_num sid (used_ids report) = some n →
          ∀ t u, Chunk.refEntry n t u ∉ refEntries (used_ids report) sources) := by
  have hmem : sid ∈ used_ids report := by
    rw [(used_ids_perm report).mem_iff, List.mem_dedup]
    exact h
  obtain ⟨n, hn⟩ := id_num_mem _ sid hmem
  refine ⟨⟨n, id_num_pos _ sid n hn, hn, ?_⟩, ?_, ?_⟩
  · unfold renderNum
    rw [hn]
  · rw [hn]
    exact fun hc => Option.noConfusion hc
  · intro hf n' hn' t u hmem'
    rcases List.mem_filterMap.mp hmem' with ⟨sid2, _, hmk⟩
    rcases h2 : id_num sid2 (used_ids report) with - | m <;>
      rcases h3 : find_source sources sid2 with - | s2 <;> rw [h2, h3] at hmk
    · exact Option.noConfusion hmk
    · exact Option.noConfusion hmk
    · exact Option.noConfusion hmk
    · have hinj := Option.some_inj.mp hmk
      injection hinj with hm ht hu
      have hsid : sid2 = sid := id_num_inj _ sid2 sid n' (hm ▸ h2) hn'
      rw [hsid] at h3
      rw [h3] at hf
      exact Option.noConfusion hf

/-- C7 witness: the amended behavior at a concrete unresolvable marker. -/
theorem C7_witness :
    ("src_zzz" ∈ markersOf [Chunk.marker "src_zzz"])
    ∧ id_num "src_zzz" (used_ids [Chunk.marker "src_zzz"]) ≠ none
    ∧ ∀ t u, Chunk.refEntry 1 t u ∉ refEntries (used_ids [Chunk.marker "src_zzz"]) [] :=
  ⟨by decide,
   (C7_amended [Chunk.marker "src_zzz"] [] "src_zzz" (by decide)).2.1,
   fun t u => (C7_amended [Chunk.marker "src_zzz"] [] "src_zzz" (by decide)).2.2
     (by decide) 1 (by decide) t u⟩

/-! Lemmas and theorems about the reflection routing. -/

theorem length_filterMap_eq_length_filter {α β : Type} (f : α → Option β) :
    ∀ l : List α, (l.filterMap f).length = (l.filter (fun a => (f a).isSome)).length := by
  intro l
  induction l with
  | nil => rfl
  | cons a l ih =>
    rcases h : f a with - | b <;>
      simp [List.filterMap_cons, List.filter_cons, h, ih]

theorem route_compile_of_cond (s : RouteState)
    (h : s.next_step ≠ "re_research" ∨ MAX_ITERATIONS ≤ s.current_iteration
      ∨ get_weak_answers s = []) :
    route_after_reflection s = [Dest.compiler] := by
  unfold route_after_reflection
  rw [if_pos h]

theorem route_research_eq (s : RouteState) (plan : ResearchPlan)
    (hplan : s.research_plan = some plan)
    (hstep : s.next_step = "re_research")
    (hiter : s.current_iteration < MAX_ITERATIONS)
    (hweak : get_weak_answers s ≠ []) :
    route_after_reflection s
      = (if (get_weak_answers s).filterMap (send_for s plan) = []
         then [Dest.compiler]
         else (get_weak_answers s).filterMap (send_for s plan)) := by
  have hcond : ¬(s.next_step ≠ "re_research" ∨ MAX_ITERATIONS ≤ s.current_iteration
      ∨ get_weak_answers s = []) := by
    intro hc
    rcases hc with h1 | h2 | h3
    · exact h1 hstep
    · exact absurd hiter (not_lt.mpr h2)
    · exact hweak h3
  simp only [route_after_reflection, hplan, if_neg hcond]

theorem not_goes_compiler : ¬ goes_to_research [Dest.compiler] := by
  rintro ⟨t, ht⟩
  have h := List.mem_singleton.mp ht
  exact Dest.noConfusion h

/-- C9 amended: whenever the router dispatches re-research tasks, it sends
exactly one task per weak answer whose question_id resolves in the plan
(entries with unknown ids are skipped), each task carries the previous
answer, previous sources, the specific suggestion and the suggested
searches, and nothing else is dispatched. -/
theorem C9_amended (s : RouteState) (plan : ResearchPlan)
    (hplan : s.research_plan = some plan)
    (hstep : s.next_step = "re_research")
    (hiter : s.current_iteration < MAX_ITERATIONS)
    (hweak : get_weak_answers s ≠ [])
    (hsends : (get_weak_answers s).filterMap (send_for s plan) ≠ []) :
    route_after_reflection s = (get_weak_answers s).filterMap (send_for s plan)
    ∧ (route_after_reflection s).length
      = ((get_weak_answers s).filter
          (fun wa => (sq_lookup plan wa.question_id).isSome)).length
    ∧ (∀ wa ∈ get_weak_answers s, ∀ sq, sq_lookup plan wa.question_id = some sq →
        Dest.parallel_researcher
          { sub_question := sq
            previous_answer := (get_answer_data s wa.question_id).1
            previous_sources := (get_answer_data s wa.question_id).2
            improvement_suggestion := wa.suggestion
            suggested_searches := get_suggested_searches s } ∈ route_after_reflection s)
    ∧ ∀ d ∈ route_after_reflection s, ∃ t, d = Dest.parallel_researcher t := by
  have hroute : route_after_reflection s = (get_weak_answers s).filterMap (send_for s plan) := by
    rw [route_research_eq s plan hplan hstep hiter hweak, if_neg hsends]
  refine ⟨hroute, ?_, ?_, ?_⟩
  · rw [hroute, length_filterMap_eq_length_filter]
    congr 1
    refine List.filter_congr ?_
    intro wa _
    unfold send_for
    rcases sq_lookup plan wa.question_id with - | sq <;> rfl
  · intro wa hwa sq hsq
    rw [hroute]
    refine List.mem_filterMap.mpr ⟨wa, hwa, ?_⟩
    unfold send_for
    rw [hsq]
    rfl
  · intro d hd
    rw [hroute] at hd
    rcases List.mem_filterMap.mp hd with ⟨wa, _, hmk⟩
    unfold send_for at hmk
    rcases h2 : sq_lookup plan wa.question_id with - | sq <;> rw [h2] at hmk
    · exact Option.noConfusion hmk
    · exact ⟨_, (Option.some_inj.mp hmk).symm⟩

/-- C9 counterexample: with two weak answers of which only q1 appears in
the plan, the router enters re-research dispatching one task, not
len(weak_answers) = 2 tasks. -/
theorem C9_counterexample :
    (get_weak_answers c9_state).length = 2
    ∧ (route_after_reflection c9_state).length = 1
    ∧ goes_to_research (route_after_reflection c9_state) := by
  refine ⟨by decide, by decide, ?_⟩
  exact ⟨ReTask.mk demo_sq "old answer" [] "dig deeper" ["extra query"], by decide⟩

/-- C9 witness: the amended dispatch rule at the concrete state. -/
theorem C9_witness :
    route_after_reflection c9_state
      = (get_weak_answers c9_state).filterMap (send_for c9_state demo_plan)
    ∧ (route_after_reflection c9_state).length
      = ((get_weak_answers c9_state).filter
          (fun wa => (sq_lookup demo_plan wa.question_id).isSome)).length :=
  ⟨(C9_amended c9_state demo_plan (by decide) (by decide) (by decide) (by decide)
      (by decide)).1,
   (C9_amended c9_state demo_plan (by decide) (by decide) (by decide) (by decide)
      (by decide)).2.1⟩

theorem route_sends_ne_nil (s : RouteState) (plan : ResearchPlan) (wa : WeakAnswer)
    (hwa : wa ∈ get_weak_answers s) (hsome : (sq_lookup plan wa.question_id).isSome) :
    (get_weak_answers s).filterMap (send_for s plan) ≠ [] := by
  rcases hsq : sq_lookup plan wa.question_id with - | sq
  · rw [hsq] at hsome
    exact absurd hsome (by simp)
  · refine List.ne_nil_of_mem (a := Dest.parallel_researcher
      { sub_question := sq
        previous_answer := (get_answer_data s wa.question_id).1
        previous_sources := (get_answer_data s wa.question_id).2
        improvement_suggestion := wa.suggestion
        suggested_searches := get_suggested_searches s }) ?_
    refine List.mem_filterMap.mpr ⟨wa, hwa, ?_⟩
    unfold send_for
    rw [hsq]
    rfl

theorem goes_to_research_of_sends (s : RouteState) (plan : ResearchPlan) (wa : WeakAnswer)
    (hwa : wa ∈ get_weak_answers s) (hsome : (sq_lookup plan wa.question_id).isSome)
    (hroute : route_after_reflection s = (get_weak_answers s).filterMap (send_for s plan)) :
    goes_to_research (route_after_reflection s) := by
  rcases hsq : sq_lookup plan wa.question_id with - | sq
  · rw [hsq] at hsome
    exact absurd hsome (by simp)
  · refine ⟨ReTask.mk sq (get_answer_data s wa.question_id).1
      (get_answer_data s wa.question_id).2 wa.suggestion (get_suggested_searches s), ?_⟩
    rw [hroute]
    refine List.mem_filterMap.mpr ⟨wa, hwa, ?_⟩
    unfold send_for
    rw [hsq]
    rfl

/-- C1 counterexample: with the default bounds (configured max_iterations 2
and the hardcoded router bound 2), an assessment of needs_improvement with a
non-empty weak_answers list at iteration count 1 satisfies all three stated
conditions (1 < 2), yet the superstep routes to the compiler: the router
re-checks the bound against the already incremented counter. -/
theorem C1_counterexample :
    (demo_analysis.overall_assessment = Assessment.needs_improvement
      ∧ demo_analysis.weak_answers ≠ [] ∧ 1 < 2)
    ∧ (reflect_then_route demo_analysis (some demo_plan) [("q1", demo_qa)] 1 2).1
        = [Dest.compiler] :=
  ⟨⟨by decide, by decide, by decide⟩, by decide⟩

/-- C1 amended: assuming every flagged question id resolves in the plan,
the reflection superstep dispatches re-research iff the assessment is
needs_improvement, weak_answers is non-empty, the pre-round iteration count
is below the configured max_iterations, and additionally the incremented
count is still below the hardcoded router bound MAX_ITERATIONS = 2; in
every other case it routes to the compiler. -/
theorem C1_amended (analysis : AgentAnalysis) (plan : ResearchPlan)
    (answers : List (String × QuestionAnswer)) (iter cfg_max : Nat)
    (hmatch : ∀ wa ∈ analysis.weak_answers, (sq_lookup plan wa.question_id).isSome) :
    (goes_to_research (reflect_then_route analysis (some plan) answers iter cfg_max).1 ↔
      (analysis.overall_assessment = Assessment.needs_improvement
        ∧ analysis.weak_answers ≠ [] ∧ iter < cfg_max ∧ iter + 1 < MAX_ITERATIONS))
    ∧ (¬(analysis.overall_assessment = Assessment.needs_improvement
        ∧ analysis.weak_answers ≠ [] ∧ iter < cfg_max ∧ iter + 1 < MAX_ITERATIONS) →
      (reflect_then_route analysis (some plan) answers iter cfg_max).1 = [Dest.compiler]) := by
  by_cases hC : analysis.overall_assessment = Assessment.needs_improvement
      ∧ analysis.weak_answers ≠ [] ∧ iter < cfg_max
  · have hrn : reflection_node analysis iter cfg_max = ("re_research", iter + 1) := by
      rw [reflection_node, if_pos hC]
    have hs1 : (reflect_then_route analysis (some plan) answers iter cfg_max).1
        = route_after_reflection
            { current_iteration := iter + 1
              next_step := "re_research"
              agent_analysis := some analysis
              research_plan := some plan
              question_answers := answers } := by
      simp only [reflect_then_route, hrn]
    obtain ⟨wa, hwa⟩ := List.exists_mem_of_ne_nil _ hC.2.1
    by_cases hI : iter + 1 < MAX_ITERATIONS
    · have hsends := route_sends_ne_nil
        { current_iteration := iter + 1
          next_step := "re_research"
          agent_analysis := some analysis
          research_plan := some plan
          question_answers := answers } plan wa hwa (hmatch wa hwa)
      have hroute := route_research_eq
        { current_iteration := iter + 1
          next_step := "re_research"
          agent_analysis := some analysis
          research_plan := some plan
          question_answers := answers } plan rfl rfl hI hC.2.1
      rw [if_neg hsends] at hroute
      constructor
      · constructor
        · intro _
          exact ⟨hC.1, hC.2.1, hC.2.2, hI⟩
        · intro _
          rw [hs1]
          exact goes_to_research_of_sends _ plan wa hwa (hmatch wa hwa) hroute
      · intro hn
        exact absurd ⟨hC.1, hC.2.1, hC.2.2, hI⟩ hn
    · have hroute : (reflect_then_route analysis (some plan) answers iter cfg_max).1
          = [Dest.compiler] := by
        rw [hs1]
        exact route_compile_of_cond _ (Or.inr (Or.inl (not_lt.mp hI)))
      constructor
      · rw [hroute]
        constructor
        · intro hg
          exact absurd hg not_goes_compiler
        · intro hc
          exact absurd hc.2.2.2 hI
      · intro _
        exact hroute
  · have hrn : reflection_node analysis iter cfg_max = ("compile", iter) := by
      rw [reflection_node, if_neg hC]
    have hne : ("compile" : String) ≠ "re_research" := by decide
    have hroute : (reflect_then_route analysis (some plan) answers iter cfg_max).1
        = [Dest.compiler] := by
      simp only [reflect_then_route, hrn]
      exact route_compile_of_cond
        { current_iteration := iter
          next_step := "compile"
          agent_analysis := some analysis
          research_plan := some plan
          question_answers := answers } (Or.inl hne)
    constructor
    · rw [hroute]
      constructor
      · intro hg
        exact absurd hg not_goes_compiler
      · intro hc
        exact absurd ⟨hc.1, hc.2.1, hc.2.2.1⟩ hC
    · intro _
      exact hroute

/-- C1 witness: the amended routing rule at concrete states, both the
re-research direction (iteration 0) and the compiler direction
(iteration 5, past every bound). -/
theorem C1_witness :
    (∀ wa ∈ demo_analysis.weak_answers, (sq_lookup demo_plan wa.question_id).isSome)
    ∧ goes_to_research (reflect_then_route demo_analysis (some demo_plan) [] 0 2).1
    ∧ (reflect_then_route demo_analysis (some demo_plan) [] 5 2).1 = [Dest.compiler] :=
  ⟨by decide,
   (C1_amended demo_analysis demo_plan [] 0 2 (by decide)).1.mpr
     ⟨by decide, by decide, by decide, by decide⟩,
   (C1_amended demo_analysis demo_plan [] 5 2 (by decide)).2
     (fun hc => absurd hc.2.2.1 (by decide))⟩

theorem run_iterations_aux (cfg_max : Nat) :
    ∀ (assessments : List AgentAnalysis) (iter : Nat),
    (∀ a ∈ assessments, a.overall_assessment ≠ Assessment.needs_improvement) →
    assessments.foldl (fun it a => (reflection_node a it cfg_max).2) iter = iter := by
  intro assessments
  induction assessments with
  | nil => intro iter _; rfl
  | cons a rest ih =>
    intro iter h
    have hstep : (reflection_node a iter cfg_max).2 = iter := by
      rw [reflection_node, if_neg]
      intro hc
      exact h a (List.mem_cons_self a rest) hc.1
    rw [List.foldl_cons, hstep]
    exact ih iter fun b hb => h b (List.mem_cons_of_mem a hb)

/-- C8 counterexample: at iteration count 1 with the default bounds, the
superstep increments the counter to 2 and still proceeds to the compiler:
the counter does increment on a path that compiles. -/
theorem C8_counterexample :
    (reflect_then_route demo_analysis (some demo_plan) [("q1", demo_qa)] 1 2).1
      = [Dest.compiler]
    ∧ (reflect_then_route demo_analysis (some demo_plan) [("q1", demo_qa)] 1 2).2 = 1 + 1 :=
  ⟨by decide, by decide⟩

/-- C8 amended: the counter increments by exactly one whenever reflection
flags needs-improvement, which covers every entry into re-researching; but
it can also increment on a path that proceeds to the compiler, namely when
reflection flags needs-improvement and the router then overrides it.  When
the assessment is not needs_improvement the counter is unchanged, so a run
whose assessments are never needs_improvement ends with count 0. -/
theorem C8_amended (analysis : AgentAnalysis) (plan : Option ResearchPlan)
    (answers : List (String × QuestionAnswer)) (iter cfg_max : Nat)
    (assessments : List AgentAnalysis) :
    (goes_to_research (reflect_then_route analysis plan answers iter cfg_max).1 →
      (reflect_then_route analysis plan answers iter cfg_max).2 = iter + 1)
    ∧ (analysis.overall_assessment ≠ Assessment.needs_improvement →
      (reflection_node analysis iter cfg_max).2 = iter)
    ∧ ((∀ a ∈ assessments, a.overall_assessment ≠ Assessment.needs_improvement) →
      run_iterations assessments cfg_max = 0) := by
  refine ⟨?_, ?_, ?_⟩
  · intro hg
    by_cases hC : analysis.overall_assessment = Assessment.needs_improvement
        ∧ analysis.weak_answers ≠ [] ∧ iter < cfg_max
    · show (reflection_node analysis iter cfg_max).2 = iter + 1
      rw [reflection_node, if_pos hC]
    · exfalso
      have hrn : reflection_node analysis iter cfg_max = ("compile", iter) := by
        rw [reflection_node, if_neg hC]
      have hne : ("compile" : String) ≠ "re_research" := by decide
      have hroute : (reflect_then_route analysis plan answers iter cfg_max).1
          = [Dest.compiler] := by
        simp only [reflect_then_route, hrn]
        exact route_compile_of_cond
          { current_iteration := iter
            next_step := "compile"
            agent_analysis := some analysis
            research_plan := plan
            question_answers := answers } (Or.inl hne)
      rw [hroute] at hg
      exact not_goes_compiler hg
  · intro h
    rw [reflection_node, if_neg]
    intro hc
    exact h hc.1
  · intro h
    exact run_iterations_aux cfg_max assessments 0 h

/-- C8 witness: the amended counter behavior at concrete inputs: an entry
into re-research increments 0 to 1; a strong assessment leaves the counter
at 5; a run of two strong assessments ends at 0. -/
theorem C8_witness :
    (reflect_then_route demo_analysis (some demo_plan) [] 0 2).2 = 0 + 1
    ∧ (reflection_node
        { demo_analysis with overall_assessment := Assessment.strong } 5 2).2 = 5
    ∧ run_iterations
        [{ demo_analysis with overall_assessment := Assessment.strong },
         { demo_analysis with overall_assessment := Assessment.adequate }] 2 = 0 :=
  ⟨(C8_amended demo_analysis (some demo_plan) [] 0 2 []).1
     ⟨ReTask.mk demo_sq "" [] "dig deeper" ["extra query"], by decide⟩,
   (C8_amended { demo_analysis with overall_assessment := Assessment.strong }
     (some demo_plan) [] 5 2 []).2.1 (by decide),
   (C8_amended demo_analysis (some demo_plan) [] 0 2
     [{ demo_analysis with overall_assessment := Assessment.strong },
      { demo_analysis with overall_assessment := Assessment.adequate }]).2.2
     (by decide)⟩

/-- C2: if planning yields a plan object whose sub_questions list is empty,
route_after_planner emits an empty Send list: no node, not even the
compiler, is scheduled, so the run stalls with no report.  The direct
route to the compiler exists only when the plan is absent altogether. -/
theorem C2_theorem :
    route_after_planner (some { main_question := "q", sub_questions := [] }) "q" = []
    ∧ route_after_planner none "q" = [PlanDest.compiler]
    ∧ ([] : List PlanDest) ≠ [PlanDest.compiler] :=
  ⟨rfl, rfl, by decide⟩

/-- C10: targeted re-research with no search results at all keeps the
previous answer text but drops the previous sources; with results but no
extracted findings it keeps the previous answer and the previous sources;
both fallbacks fix confidence to medium and completeness to partial
regardless of the previous values. -/
theorem C10_theorem (sq : SubQuestion) (previous_answer : String)
    (previous_sources : List SourceMetadata)
    (extract : List SearchHit → List Finding × List SourceMetadata)
    (synthesize : List Finding → String) :
    improve_research sq previous_answer previous_sources [] extract synthesize
      = { question_id := sq.question_id, question := sq.question,
          answer := previous_answer, key_findings := [], sources := [],
          confidence := "medium", completeness := "partial" }
    ∧ ∀ all_results : List SearchHit, all_results ≠ [] →
        (extract (rank all_results)).1 = [] →
        improve_research sq previous_answer previous_sources all_results extract synthesize
          = { question_id := sq.question_id, question := sq.question,
              answer := previous_answer, key_findings := [],
              sources := previous_sources,
              confidence := "medium", completeness := "partial" } := by
  constructor
  · simp [improve_research, make_answer]
  · intro rs hne hext
    simp only [improve_research]
    rw [if_neg hne, if_pos hext]
    rfl

/-- C10 witness: both fallbacks at concrete inputs: empty search results,
and one result with an extraction oracle that finds nothing. -/
theorem C10_witness :
    improve_research demo_sq "prev" [demo_src] [] no_findings_extract const_synth
      = { question_id := demo_sq.question_id, question := demo_sq.question,
          answer := "prev", key_findings := [], sources := [],
          confidence := "medium", completeness := "partial" }
    ∧ improve_research demo_sq "prev" [demo_src] [demo_hit] no_findings_extract const_synth
      = { question_id := demo_sq.question_id, question := demo_sq.question,
          answer := "prev", key_findings := [], sources := [demo_src],
          confidence := "medium", completeness := "partial" } :=
  ⟨(C10_theorem demo_sq "prev" [demo_src] no_findings_extract const_synth).1,
   (C10_theorem demo_sq "prev" [demo_src] no_findings_extract const_synth).2
     [demo_hit] (by decide) rfl⟩
